import Mathlib

/-!
Verification of the wenku document downloader (`wenku.py`) against its
specification.  The Python source is shallowly embedded: every pure helper
becomes a Lean function over `List Char` / `String`, byte strings become
`List Nat`, the thread pool of `batch_fetch` becomes an explicit
completion-order model, and raised exceptions become `Except` / `Option`
results.
-/

namespace Wenku

/-! ## Character helpers -/

/-- Lowercase hexadecimal digit, the character class `[0-9a-f]` used by
`parse_doc_id`. -/
def isHexLower (c : Char) : Bool :=
  (('0' ≤ c) && (c ≤ '9')) || (('a' ≤ c) && (c ≤ 'f'))

/-- The character `{` (written via its code point to keep string literals
plain). -/
def lbrace : Char := Char.ofNat 123

/-- The character `}`. -/
def rbrace : Char := Char.ofNat 125

/-- Match a literal character sequence `pat` at the head of `l`; on success
return the remainder.  Models a regex literal fragment. -/
def matchLit : List Char → List Char → Option (List Char)
  | [], l => some l
  | _ :: _, [] => none
  | p :: ps, c :: cs => if c = p then matchLit ps cs else none

/-- Does `pat` occur as a contiguous segment of `l`?  Models Python's
`sub in s` substring test. -/
def containsSeg (pat : List Char) : List Char → Bool
  | [] => pat.isEmpty
  | l@(_ :: rest) => (matchLit pat l).isSome || containsSeg pat rest

/-- Index of the first occurrence of `c`, models `str.find` (which returns
-1 on absence; absence is `none` here). -/
def strFind (c : Char) : List Char → Option Nat
  | [] => none
  | x :: xs => if x = c then some 0 else (strFind c xs).map (· + 1)

/-- Index of the last occurrence of `c`, models `str.rindex` (which raises
`ValueError` on absence; absence is `none` here). -/
def strRFind (c : Char) : List Char → Option Nat
  | [] => none
  | x :: xs =>
    match strRFind c xs with
    | some i => some (i + 1)
    | none => if x = c then some 0 else none

/-! ## `parse_doc_id` — identifier extraction

The source applies `re.findall(r"([0-9a-f]{8,})", url)` and returns the
first match, or `None`.  The first match of that regex is the first maximal
run of lowercase hex digits of length ≥ 8, taken in full (the quantifier is
greedy, and no position inside a run shorter than 8 can start a match). -/

/-- Scanner for the first maximal hex run of length ≥ 8.  `cur` is the
current run, accumulated in reverse. -/
def hexScan (cur : List Char) : List Char → Option (List Char)
  | [] => if 8 ≤ cur.length then some cur.reverse else none
  | c :: rest =>
    if isHexLower c then hexScan (c :: cur) rest
    else if 8 ≤ cur.length then some cur.reverse else hexScan [] rest

/-- `WenKuClient.parse_doc_id`: first match of `[0-9a-f]{8,}` in the input,
`none` when there is no match. -/
def parse_doc_id (url : String) : Option String :=
  (hexScan [] url.toList).map fun l => String.mk l

/-- Does a run of 8 consecutive lowercase hex digits start at the head of
`l`? (Specification-side helper for stating `parse_doc_id` facts.) -/
def startsRun8 (l : List Char) : Bool :=
  decide (8 ≤ (l.takeWhile isHexLower).length)

/-- Does any position of `l` start 8 consecutive lowercase hex digits?
This is exactly "the regex `[0-9a-f]{8,}` has a match in `l`". -/
def hasRun8 : List Char → Bool
  | [] => false
  | c :: rest => startsRun8 (c :: rest) || hasRun8 rest

/-- `r` is the *first* match of `[0-9a-f]{8,}` in `l`: a hex run of length
≥ 8 occurring in `l`, maximal on both sides (the character before it, if
any, is not a hex digit, and neither is the character after it — the
greedy quantifier takes the whole run), and leftmost (no strictly earlier
position of `l` starts 8 consecutive hex digits, so no match can begin
before it). -/
def IsFirstHexMatch (l r : List Char) : Prop :=
  ∃ pre suf : List Char,
    l = pre ++ r ++ suf ∧
    8 ≤ r.length ∧ r.all isHexLower = true ∧
    (∀ c, suf.head? = some c → isHexLower c = false) ∧
    (∀ c, pre.getLast? = some c → isHexLower c = false) ∧
    ∀ k, k < pre.length → startsRun8 (l.drop k) = false

/-! ## `parse_doc_content` — word-record assembly

The loop body of `WenKuClient.parse_doc_content`: records whose type tag is
not `"word"` are skipped outright; for a word record the character payload
is appended, and a newline is appended *after* it when its vertical
coordinate differs from the previous contributing record's by more than 1.
Coordinates are modelled as integers (the payloads carry integral pixel
coordinates). -/

structure WordRec where
  t : String
  c : String
  y : Int
deriving DecidableEq

/-- One iteration of the `parse_doc_content` loop.  State: the `last_y`
tracker (`none` models Python's initial `None`) and the accumulated text. -/
def contentStep (st : Option Int × String) (item : WordRec) : Option Int × String :=
  if item.t == "word" then
    let text := st.2 ++ item.c
    let text :=
      match st.1 with
      | some ly => if 1 < (item.y - ly).natAbs then text ++ "\n" else text
      | none => text
    (some item.y, text)
  else st

/-- The `parse_doc_content` loop over a decoded record list. -/
def wordText (items : List WordRec) : String :=
  (items.foldl contentStep (none, "")).2

/-- Reference form of the assembled text for a list of contributing (word)
records: the first record contributes its payload; every later record
contributes its payload followed by a newline exactly when its `y` differs
from the previous record's `y` by more than 1. -/
def specJoin : Int → List WordRec → String
  | _, [] => ""
  | prev, w :: ws =>
    w.c ++ (if 1 < (w.y - prev).natAbs then "\n" else "") ++ specJoin w.y ws

/-- Reference assembly over an already-filtered list of word records. -/
def specAssemble : List WordRec → String
  | [] => ""
  | w :: ws => w.c ++ specJoin w.y ws

/-! ## `parse_image_urls` — zoom matching and URL derivation

The source scans each page's `zoom` string with
`re.findall(r"png=(\d+-\d+)&jpg=(\d+-\d+)", zoom)` and takes the first
match.  Since `\d+` is greedy and backtracking into a digit run can never
satisfy a following non-digit literal, the first match is computed by
maximal-munch at the leftmost matching position. -/

/-- Parse `\d+-\d+` at the head: the matched range text and the rest. -/
def matchRange (l : List Char) : Option (List Char × List Char) :=
  let d1 := l.takeWhile Char.isDigit
  if d1.isEmpty then none
  else
    match l.drop d1.length with
    | c :: r2 =>
      if c = '-' then
        let d2 := r2.takeWhile Char.isDigit
        if d2.isEmpty then none
        else some (d1 ++ '-' :: d2, r2.drop d2.length)
      else none
    | [] => none

/-- Match `png=(\d+-\d+)&jpg=(\d+-\d+)` at the head of `l`, returning the
two captured ranges. -/
def matchZoomAt (l : List Char) : Option (List Char × List Char) :=
  match matchLit ("png=".toList) l with
  | none => none
  | some r1 =>
    match matchRange r1 with
    | none => none
    | some (png, r2) =>
      match matchLit ("&jpg=".toList) r2 with
      | none => none
      | some r3 =>
        match matchRange r3 with
        | none => none
        | some (jpg, _) => some (png, jpg)

/-- First (leftmost) match of the zoom pattern in `l`:
`re.findall(...)[0]` when a match exists. -/
def findZoom : List Char → Option (List Char × List Char)
  | [] => none
  | l@(_ :: rest) =>
    match matchZoomAt l with
    | some g => some g
    | none => findZoom rest

/-- The image-service URL template of `parse_image_urls`. -/
def mkImageUrl (doc_id md5sum fmt zoom : String) : String :=
  "https://wkretype.bdimg.com/retype/zoom/" ++ doc_id ++ "?o=" ++ fmt ++ md5sum ++ zoom

/-- The per-page body of the `parse_image_urls` loop: `none` when the page
contributes no URL (pattern miss, or both ranges degenerate), otherwise the
derived URL.  `img_fmt` defaults to `"jpg"` and flips to `"png"` exactly
when the jpg range is `"0-0"`. -/
def imageUrlFor (doc_id md5sum zoom : String) : Option String :=
  match findZoom zoom.toList with
  | none => none
  | some (p, j) =>
    let png_range := String.mk p
    let jpg_range := String.mk j
    if jpg_range = "0-0" ∧ png_range = "0-0" then none
    else some (mkImageUrl doc_id md5sum (if jpg_range = "0-0" then "png" else "jpg") zoom)

/-- One page descriptor from `bcsParam` (the loop reads only `zoom`). -/
structure PageParam where
  zoom : String
  page : Nat
deriving DecidableEq

/-- The metadata fields `parse_image_urls` and `fetch` consume. -/
structure DocInfo where
  doc_id : String
  md5sum : String
  bcsParam : List PageParam
deriving DecidableEq

/-- `WenKuClient.parse_image_urls` as the source's accumulating loop. -/
def parse_image_urls (info : DocInfo) : List String :=
  info.bcsParam.foldl
    (fun urls param =>
      match imageUrlFor info.doc_id info.md5sum param.zoom with
      | none => urls
      | some u => urls ++ [u])
    []

/-! ## JSON values and `json.loads`

`load_jsonp`, `get_text` and `parse_doc_content` all call `json.loads`.
The stdlib parser is modelled by a recursive-descent parser over
`List Char` (fuel-based so that it is structural and kernel-evaluable).
Numbers are kept symbolically as sign/integer-part/fraction-digits/exponent;
the exotic `NaN`/`Infinity` extensions and lone-surrogate escapes are not
modelled. -/

inductive Json where
  | null
  | bool (b : Bool)
  | num (neg : Bool) (ip : Nat) (frac : List Nat) (ex : Int)
  | str (s : String)
  | arr (xs : List Json)
  | obj (kvs : List (String × Json))

/-- JSON whitespace. -/
def isWs (c : Char) : Bool :=
  (c == ' ') || (c == '\t') || (c == '\n') || (c == '\r')

/-- Drop leading JSON whitespace. -/
def skipWs (l : List Char) : List Char := l.dropWhile isWs

/-- Value of a decimal digit character. -/
def digitVal (c : Char) : Nat := c.toNat - 48

/-- Decimal digit run to a natural number. -/
def digitsToNat (ds : List Char) : Nat :=
  ds.foldl (fun n d => n * 10 + digitVal d) 0

/-- Hexadecimal digit (either case), for `\uXXXX` escapes. -/
def isHexAny (c : Char) : Bool :=
  c.isDigit || (('a' ≤ c) && (c ≤ 'f')) || (('A' ≤ c) && (c ≤ 'F'))

/-- Value of a hexadecimal digit character. -/
def hexVal (c : Char) : Nat :=
  if c.isDigit then c.toNat - 48
  else if ('a' ≤ c) && (c ≤ 'f') then c.toNat - 87
  else c.toNat - 55

/-- Single-character JSON string escapes (the `\u` form is handled
separately). -/
def escChar : Char → Option Char
  | 'b' => some (Char.ofNat 8)
  | 'f' => some (Char.ofNat 12)
  | 'n' => some '\n'
  | 't' => some '\t'
  | 'r' => some '\r'
  | '/' => some '/'
  | '"' => some '"'
  | '\\' => some '\\'
  | _ => none

/-- Parse the body of a JSON string (after the opening quote): the decoded
characters and the remainder after the closing quote.  Raw control
characters are rejected, as in strict-mode `json.loads`. -/
def parseStringRest : List Char → Option (List Char × List Char)
  | [] => none
  | c :: rest =>
    if c == '"' then some ([], rest)
    else if c == '\\' then
      match rest with
      | [] => none
      | e :: r2 =>
        if e == 'u' then
          match r2 with
          | h1 :: h2 :: h3 :: h4 :: r3 =>
            if isHexAny h1 && isHexAny h2 && isHexAny h3 && isHexAny h4 then
              let cp := ((hexVal h1 * 16 + hexVal h2) * 16 + hexVal h3) * 16 + hexVal h4
              (parseStringRest r3).map fun pr => (Char.ofNat cp :: pr.1, pr.2)
            else none
          | _ => none
        else
          match escChar e with
          | some ec => (parseStringRest r2).map fun pr => (ec :: pr.1, pr.2)
          | none => none
    else if c.toNat < 32 then none
    else (parseStringRest rest).map fun pr => (c :: pr.1, pr.2)

/-- Split a leading decimal-digit run. -/
def parseDigits (l : List Char) : List Char × List Char :=
  (l.takeWhile Char.isDigit, l.dropWhile Char.isDigit)

/-- Optional `.digits` fraction part. -/
def parseFracPart (l : List Char) : Option (List Char × List Char) :=
  match l with
  | c :: r =>
    if c == '.' then
      let (fs, r2) := parseDigits r
      if fs.isEmpty then none else some (fs, r2)
    else some ([], l)
  | [] => some ([], l)

/-- Optional `[eE][+-]?digits` exponent part. -/
def parseExpPart (l : List Char) : Option (Int × List Char) :=
  match l with
  | c :: r =>
    if (c == 'e') || (c == 'E') then
      let (esign, r2) :=
        match r with
        | s :: r3 => if s == '+' then (false, r3) else if s == '-' then (true, r3) else (false, r)
        | [] => (false, r)
      let (es, r4) := parseDigits r2
      if es.isEmpty then none
      else some ((if esign then -(digitsToNat es : Int) else (digitsToNat es : Int)), r4)
    else some (0, l)
  | [] => some (0, l)

/-- Parse a JSON number at the head of `l` (leading zeros rejected as in
the JSON grammar). -/
def parseNumAt (l : List Char) : Option (Json × List Char) :=
  let (neg, l1) :=
    match l with
    | c :: r => if c == '-' then (true, r) else (false, l)
    | [] => (false, l)
  let (ds, l2) := parseDigits l1
  if ds.isEmpty then none
  else if decide (1 < ds.length) && (ds.headD '0' == '0') then none
  else
    match parseFracPart l2 with
    | none => none
    | some (fs, l3) =>
      match parseExpPart l3 with
      | none => none
      | some (ex, l4) =>
        some (Json.num neg (digitsToNat ds) (fs.map digitVal) ex, l4)

mutual

/-- Parse one JSON value at the head of the input (whitespace already
skipped).  Fuel decreases on every mutual call; `json_loads_chars` supplies
enough for any input it is given. -/
def parseVal : Nat → List Char → Option (Json × List Char)
  | 0, _ => none
  | fuel + 1, l =>
    match l with
    | [] => none
    | c :: rest =>
      if c == '"' then
        (parseStringRest rest).map fun pr => (Json.str (String.mk pr.1), pr.2)
      else if c == '[' then
        match skipWs rest with
        | d :: r1 =>
          if d = ']' then some (Json.arr [], r1)
          else (parseArrItems fuel (skipWs rest)).map fun pr => (Json.arr pr.1, pr.2)
        | [] => none
      else if c = lbrace then
        match skipWs rest with
        | d :: r1 =>
          if d = rbrace then some (Json.obj [], r1)
          else (parseObjItems fuel (skipWs rest)).map fun pr => (Json.obj pr.1, pr.2)
        | [] => none
      else if c == 't' then
        (matchLit ("rue".toList) rest).map fun r => (Json.bool true, r)
      else if c == 'f' then
        (matchLit ("alse".toList) rest).map fun r => (Json.bool false, r)
      else if c == 'n' then
        (matchLit ("ull".toList) rest).map fun r => (Json.null, r)
      else parseNumAt l

/-- Parse the comma-separated items of a non-empty array (after `[`). -/
def parseArrItems : Nat → List Char → Option (List Json × List Char)
  | 0, _ => none
  | fuel + 1, l =>
    match parseVal fuel l with
    | none => none
    | some (v, r1) =>
      match skipWs r1 with
      | c :: r2 =>
        if c == ',' then
          match parseArrItems fuel (skipWs r2) with
          | none => none
          | some (vs, r3) => some (v :: vs, r3)
        else if c == ']' then some ([v], r2)
        else none
      | [] => none

/-- Parse the comma-separated members of a non-empty object (after `{`). -/
def parseObjItems : Nat → List Char → Option (List (String × Json) × List Char)
  | 0, _ => none
  | fuel + 1, l =>
    match l with
    | c :: r =>
      if c == '"' then
        match parseStringRest r with
        | none => none
        | some (key, r1) =>
          match skipWs r1 with
          | d :: r2 =>
            if d == ':' then
              match parseVal fuel (skipWs r2) with
              | none => none
              | some (v, r3) =>
                match skipWs r3 with
                | e :: r4 =>
                  if e == ',' then
                    match skipWs r4 with
                    | f :: r5 =>
                      if f == '"' then
                        match parseObjItems fuel (f :: r5) with
                        | none => none
                        | some (kvs, r6) => some ((String.mk key, v) :: kvs, r6)
                      else none
                    | [] => none
                  else if e = rbrace then some ([(String.mk key, v)], r4)
                  else none
                | [] => none
            else none
          | [] => none
      else none
    | [] => none

end

/-- `json.loads` on a character list: parse one value surrounded by
whitespace, requiring the whole input to be consumed. -/
def json_loads_chars (l : List Char) : Option Json :=
  match parseVal (2 * l.length + 2) (skipWs l) with
  | some (v, rest) => if (skipWs rest).isEmpty then some v else none
  | none => none

/-- `json.loads` on a string. -/
def json_loads (s : String) : Option Json := json_loads_chars s.toList

/-! ## UTF-8 decoding and `load_jsonp` -/

/-- Is `b` a UTF-8 continuation byte? -/
def isCont (b : Nat) : Bool := (128 ≤ b) && (b < 192)

/-- Payload of a continuation byte. -/
def contVal (b : Nat) : Nat := b - 128

/-- Strict UTF-8 decoder, models `bytes.decode("u8")`: rejects stray or
missing continuation bytes, overlong encodings, surrogates and
out-of-range code points. -/
def utf8Decode : List Nat → Option (List Char)
  | [] => some []
  | b :: rest =>
    if b < 128 then (utf8Decode rest).map fun cs => Char.ofNat b :: cs
    else if b < 194 then none
    else if b < 224 then
      match rest with
      | b2 :: r =>
        if isCont b2 then
          (utf8Decode r).map fun cs => Char.ofNat ((b - 192) * 64 + contVal b2) :: cs
        else none
      | [] => none
    else if b < 240 then
      match rest with
      | b2 :: b3 :: r =>
        if isCont b2 && isCont b3 then
          let cp := (b - 224) * 4096 + contVal b2 * 64 + contVal b3
          if (2048 ≤ cp) && !((55296 ≤ cp) && (cp < 57344)) then
            (utf8Decode r).map fun cs => Char.ofNat cp :: cs
          else none
        else none
      | _ => none
    else if b < 245 then
      match rest with
      | b2 :: b3 :: b4 :: r =>
        if isCont b2 && isCont b3 && isCont b4 then
          let cp := (b - 240) * 262144 + contVal b2 * 4096 + contVal b3 * 64 + contVal b4
          if (65536 ≤ cp) && (cp < 1114112) then
            (utf8Decode r).map fun cs => Char.ofNat cp :: cs
          else none
        else none
      | _ => none
    else none

/-- ASCII byte string literal helper (all source payloads are ASCII). -/
def asciiBytes (s : String) : List Nat := s.toList.map Char.toNat

/-- The error taxonomy of the specification: `ParseError` stands for the
`ValueError`/`json.JSONDecodeError` raised inside `load_jsonp`,
`EncodingError` for `UnicodeDecodeError`. -/
inductive JErr where
  | EncodingError
  | ParseError
deriving DecidableEq

/-- A `Union[str, bytes]` payload. -/
inductive Payload where
  | text (s : String)
  | bytes (b : List Nat)

/-- The start of the slice `content[lindex + 1:]` taken by `load_jsonp`:
`lindex` is `content.find("(")`, which returns -1 when `(` is absent, so
the slice starts at 0 in that case. -/
def jsonpStart (chars : List Char) : Nat :=
  match strFind '(' chars with
  | some i => i + 1
  | none => 0

/-- Core of `WenKuClient.load_jsonp` after decoding: slice between
`content.find("(") + 1` and `content.rindex(")")` (`rindex` raises
`ValueError` on absence) and JSON-parse the slice. -/
def load_jsonp_chars (chars : List Char) : Except JErr Json :=
  let start : Nat := jsonpStart chars
  match strRFind ')' chars with
  | none => Except.error JErr.ParseError
  | some rindex =>
    match json_loads_chars ((chars.drop start).take (rindex - start)) with
    | some v => Except.ok v
    | none => Except.error JErr.ParseError

/-- `WenKuClient.load_jsonp`: decode byte input as UTF-8, then unwrap and
parse. -/
def load_jsonp (p : Payload) : Except JErr Json :=
  match p with
  | Payload.text s => load_jsonp_chars s.toList
  | Payload.bytes b =>
    match utf8Decode b with
    | none => Except.error JErr.EncodingError
    | some cs => load_jsonp_chars cs

/-! ## JSON access helpers (Python subscripting) -/

/-- Dict lookup with Python semantics (a later duplicate key wins);
`none` models `KeyError` / `TypeError` on non-dict subscripting. -/
def lookupLast (k : String) : List (String × Json) → Option Json
  | [] => none
  | (k2, v) :: rest =>
    match lookupLast k rest with
    | some r => some r
    | none => if k2 = k then some v else none

/-- `j[k]` for a JSON value: defined only on objects. -/
def jGet (j : Json) (k : String) : Option Json :=
  match j with
  | Json.obj kvs => lookupLast k kvs
  | _ => none

/-- Project a JSON string. -/
def jStr : Json → Option String
  | Json.str s => some s
  | _ => none

/-- Project an integral JSON number (coordinates and page numbers in the
observed payloads are integers; non-integral numbers are outside the
model). -/
def jInt : Json → Option Int
  | Json.num neg ip [] 0 => some (if neg then -(ip : Int) else (ip : Int))
  | _ => none

/-! ## `parse_doc_content` on raw fragment bytes -/

/-- The `parse_doc_content` loop over the decoded `body` items, with the
field accesses of the source (`item['t']`, `item['c']`, `item['p']['y']`);
`none` models an uncaught exception (missing key, non-string payload,
non-integral coordinate). Non-`"word"` items are skipped after reading only
`item['t']`. -/
def wordTextJAux : Option Int × String → List Json → Option String
  | st, [] => some st.2
  | st, item :: rest =>
    match jGet item "t" with
    | none => none
    | some (Json.str s) =>
      if s == "word" then
        match jGet item "c" >>= jStr, (jGet item "p" >>= fun p => jGet p "y") >>= jInt with
        | some c, some y =>
          let text := st.2 ++ c
          let text :=
            match st.1 with
            | some ly => if 1 < (y - ly).natAbs then text ++ "\n" else text
            | none => text
          wordTextJAux (some y, text) rest
        | _, _ => none
      else wordTextJAux st rest
    | some _ => wordTextJAux st rest

/-- `WenKuClient.parse_doc_content`: unwrap the JSONP fragment, take its
`body` list and assemble the text; `none` models an uncaught exception. -/
def parse_doc_content (raw : List Nat) : Option String :=
  match load_jsonp (Payload.bytes raw) with
  | Except.error _ => none
  | Except.ok j =>
    match jGet j "body" with
    | some (Json.arr items) => wordTextJAux (none, "") items
    | _ => none

/-! ## `batch_fetch` — the ordered worker-pool model

`batch_fetch` submits one task per URL to a `ThreadPoolExecutor` (in list
order) and then yields `task.result()` for each task in submission order.
The model makes the nondeterministic completion order explicit: all tasks
are submitted into a slot table, an adversarial `order` lists the indices
in the order the workers happen to finish, and the consumer then reads the
slots in submission order.  Reading succeeds only if every consumed slot
has completed (a `task.result()` call blocks until its own task is done,
so when every submitted task eventually completes the read is exactly
this). -/

/-- The transport: `requests.get(url).content` as a pure function chosen
by the test environment. -/
abbrev Transport := String → List Nat

/-- Slot table after the workers complete in the order `order`: completing
task `i` stores the fetched content of the `i`-th URL into slot `i`. -/
def runPool (fetchf : Transport) (urls : List String) (order : List Nat) :
    List (Option (List Nat)) :=
  order.foldl
    (fun slots i => slots.set i (some (fetchf (urls.getD i ""))))
    (List.replicate urls.length none)

/-- Consume the slots in submission order; `none` if some consumed task
never completed. -/
def collectResults : List (Option (List Nat)) → Option (List (List Nat))
  | [] => some []
  | none :: _ => none
  | some b :: rest => (collectResults rest).map fun bs => b :: bs

/-- `WenKuClient.batch_fetch` under a completion schedule `order`. -/
def batch_fetch (fetchf : Transport) (urls : List String) (order : List Nat) :
    Option (List (List Nat)) :=
  collectResults (runPool fetchf urls order)

/-! ## `ProgressInfo` and `get_text` -/

/-- `ProgressInfo.__exit__` returns `True` exactly when an exception is
active (`if exc_value: ... return True`), which makes the context manager
swallow it. -/
def progressExitReturn (excValue : Option String) : Bool :=
  excValue.isSome

/-- Running a computation under the `@ProgressInfo(...)` decorator: a raised
exception is passed to `__exit__` and suppressed when it returns `True`,
making the decorated call return `None`; otherwise it would propagate. -/
def runWithProgress {α : Type} (r : Except String α) : Except String (Option α) :=
  match r with
  | Except.ok a => Except.ok (some a)
  | Except.error e =>
    if progressExitReturn (some e) then Except.ok none else Except.error e

/-- Take the current line (Python `re`'s `.` does not match `\n`). -/
def lineOf (l : List Char) : List Char :=
  l.takeWhile fun c => !(c == '\n')

/-- Match `\{.*\}` at the head of `l` (greedy, single line): `l` must start
with `{`, and the capture extends to the last `}` on that line. -/
def braceCapture (l : List Char) : Option (List Char) :=
  match l with
  | c :: rest =>
    if c = lbrace then
      let line := lineOf rest
      match strRFind rbrace line with
      | some j => some (lbrace :: line.take (j + 1))
      | none => none
    else none
  | [] => none

/-- First match of `re.findall(r"var pageData = (\{.*\})", html)`: scan for
the literal prefix followed by a brace capture; on a failed capture the
scan resumes one character later, as the regex engine does. -/
def findPageData : List Char → Option (List Char)
  | [] => none
  | l@(_ :: rest) =>
    match matchLit ("var pageData = ".toList) l with
    | some after =>
      match braceCapture after with
      | some cap => some cap
      | none => findPageData rest
    | none => findPageData rest

/-- Modelled from the spec: the *secondary* embedded-JSON shape (a direct
`WkInfo.htmlUrls = '...'` assignment).  This shape is handled only by the
other `wenku.py` variant mentioned by the specification, which is not part
of the sources; the predicate just recognises its presence in a page. -/
def hasWkInfoPattern (html : String) : Bool :=
  containsSeg ("WkInfo.htmlUrls = '".toList) html.toList

/-- The environment `get_text` runs against: the viewer-page body returned
for `https://wenku.baidu.com/view/<doc_id>` and the transport used by
`batch_fetch` for the fragment URLs. -/
structure TextEnv where
  viewerHtml : String
  fetchf : Transport

/-- The body of `WenKuClient.get_text` before the `@ProgressInfo`
decorator is applied: scan for `var pageData = {...}`, parse it, follow
`readerInfo2019.htmlUrls` (a JSON-encoded string), reject list-shaped
`htmlUrls`, collect the `pageLoadUrl` of every entry of its `json` list,
fetch the fragments in order (the consumed `batch_fetch` sequence, see
`batch_fetch_ordered`) and concatenate the assembled fragment texts.
Errors carry the exception's message; unnamed shape errors model
`KeyError`/`TypeError`/`json` failures. -/
def get_text_raw (env : TextEnv) : Except String String :=
  match findPageData env.viewerHtml.toList with
  | none => Except.error "无法解析页面"
  | some cap =>
    match json_loads_chars cap with
    | none => Except.error "json.JSONDecodeError"
    | some page_data =>
      match (jGet page_data "readerInfo2019" >>= fun r => jGet r "htmlUrls") >>= jStr with
      | none => Except.error "KeyError"
      | some html_url_content =>
        match json_loads html_url_content with
        | none => Except.error "json.JSONDecodeError"
        | some html_urls =>
          match html_urls with
          | Json.arr _ => Except.error "非文本类型文档"
          | _ =>
            match jGet html_urls "json" with
            | some (Json.arr url_infos) =>
              match url_infos.mapM fun info => jGet info "pageLoadUrl" >>= jStr with
              | none => Except.error "KeyError"
              | some urls =>
                match urls.mapM fun u => parse_doc_content (env.fetchf u) with
                | none => Except.error "ParseError"
                | some frags => Except.ok (String.join frags)
            | _ => Except.error "KeyError"

/-- `WenKuClient.get_text` as called by `fetch`: the raw body under the
`@ProgressInfo("正在获取文档文本...")` decorator, whose `__exit__` swallows
any exception, so a failing extraction yields `None`. -/
def get_text (env : TextEnv) : Except String (Option String) :=
  runWithProgress (get_text_raw env)

/-! ## `get_images` and `fetch` (the orchestrator) -/

/-- `WenKuClient.get_images`: derive the image URLs, fetch them in order
(`batch_fetch`, consumed sequence) and name them `page-<n>.<ext>` with the
extension read back from the URL (`"o=jpg" in url`). -/
def get_images (info : DocInfo) (fetchf : Transport) : List (String × List Nat) :=
  let image_urls := parse_image_urls info
  (List.range image_urls.length).map fun i =>
    let url := image_urls.getD i ""
    let ext := if containsSeg ("o=jpg".toList) url.toList then "jpg" else "png"
    ("page-" ++ toString (i + 1) ++ "." ++ ext, fetchf url)

/-- Extract the `DocInfo` fields `fetch`/`parse_image_urls` read from the
metadata JSON; `none` models the exception a missing or ill-typed field
would raise. -/
def docInfoOfJson (j : Json) : Option DocInfo :=
  match jGet j "doc_id" >>= jStr, jGet j "md5sum" >>= jStr, jGet j "bcsParam" with
  | some did, some md5, some (Json.arr ps) =>
    (ps.mapM fun p =>
        match jGet p "zoom" >>= jStr, jGet p "page" >>= jInt with
        | some z, some pg => some (PageParam.mk z pg.toNat)
        | _, _ => none).map
      fun params => DocInfo.mk did md5 params
  | _, _, _ => none

/-- Observable effects of one `fetch` run. -/
inductive FEvent where
  | warned (msg : String)
  | madeDir (title : String)
  | wroteFile (path : String) (data : List Nat)
  | wroteTextFile (path : String) (text : String)
  | printedPath (title : String)
deriving DecidableEq

/-- The environment one `fetch` run sees: the input URL and the transport
responses (metadata endpoint bytes, viewer page body, per-URL content). -/
structure FetchEnv where
  url : String
  docInfoResp : List Nat
  viewerHtml : String
  fetchf : Transport

/-- `WenKuClient.fetch`: the orchestrator, returning the run's effect
trace, or `Except.error` for an exception that propagates out of `fetch`.
`get_doc_info` runs under `@ProgressInfo`, so its failure is swallowed to
`None`, after which subscripting `None` raises (`.error`); a swallowed
`get_text` failure instead hits the explicit `if text is None` warning
path. -/
def fetch (env : FetchEnv) : Except String (List FEvent) :=
  match parse_doc_id env.url with
  | none => Except.ok [FEvent.warned ("Can not get doc_id from " ++ env.url)]
  | some _doc_id =>
    match runWithProgress ((load_jsonp (Payload.bytes env.docInfoResp)).mapError
        fun _ => "ParseError") with
    | Except.error e => Except.error e
    | Except.ok none => Except.error "TypeError: NoneType is not subscriptable"
    | Except.ok (some j) =>
      match (jGet j "docInfo" >>= fun d => jGet d "docTitle") >>= jStr with
      | none => Except.error "KeyError: docTitle"
      | some title =>
        match docInfoOfJson j with
        | none => Except.error "KeyError"
        | some info =>
          let events := FEvent.madeDir title ::
            (get_images info env.fetchf).map fun fd =>
              FEvent.wroteFile (title ++ "/" ++ fd.1) fd.2
          match runWithProgress (get_text_raw (TextEnv.mk env.viewerHtml env.fetchf)) with
          | Except.error e => Except.error e
          | Except.ok none => Except.ok (events ++ [FEvent.warned "无文本信息"])
          | Except.ok (some text) =>
            Except.ok (events ++
              [FEvent.wroteTextFile (title ++ "/" ++ title ++ ".txt") text,
               FEvent.printedPath title])

/-! ## Concrete fixtures for the theorems below -/

/-- The word records of the text-assembly example:
`[{t:"word",c:"A",p:{y:0}}, {t:"word",c:"B",p:{y:0}}, {t:"word",c:"C",p:{y:5}}]`. -/
def c2recs : List WordRec :=
  [WordRec.mk "word" "A" 0, WordRec.mk "word" "B" 0, WordRec.mk "word" "C" 5]

/-- The same records as a raw JSONP fragment, as `parse_doc_content`
receives them. -/
def c2frag : String :=
  "cb(\x7b\"body\": [\x7b\"t\": \"word\", \"c\": \"A\", \"p\": \x7b\"y\": 0\x7d\x7d, \x7b\"t\": \"word\", \"c\": \"B\", \"p\": \x7b\"y\": 0\x7d\x7d, \x7b\"t\": \"word\", \"c\": \"C\", \"p\": \x7b\"y\": 5\x7d\x7d]\x7d)"

/-- A transport that returns empty bodies. -/
def nullFetch : Transport := fun _ => []

/-- A viewer page carrying only the secondary (`WkInfo.htmlUrls`) shape,
not the primary `var pageData` blob. -/
def wkOnlyHtml : String := "var x = 1;\nWkInfo.htmlUrls = 'u';\n"

/-- A concrete metadata-endpoint response. -/
def metaResp : String :=
  "cb(\x7b\"doc_id\": \"aabbccdd\", \"docInfo\": \x7b\"docTitle\": \"T\"\x7d, \"md5sum\": \"m\", \"bcsParam\": [\x7b\"zoom\": \"&png=0-0&jpg=5-10\", \"page\": 1\x7d]\x7d)"

/-- The JSON value `metaResp` unwraps to. -/
def jMeta : Json :=
  Json.obj
    [("doc_id", Json.str "aabbccdd"),
     ("docInfo", Json.obj [("docTitle", Json.str "T")]),
     ("md5sum", Json.str "m"),
     ("bcsParam",
      Json.arr
        [Json.obj [("zoom", Json.str "&png=0-0&jpg=5-10"), ("page", Json.num false 1 [] 0)]])]

/-- The `DocInfo` fields of `jMeta`. -/
def infoMeta : DocInfo :=
  DocInfo.mk "aabbccdd" "m" [PageParam.mk "&png=0-0&jpg=5-10" 1]

/-- A complete `fetch` environment whose viewer page has no extractable
text. -/
def env1 : FetchEnv :=
  FetchEnv.mk "https://x/view/aabbccdd.html" (asciiBytes metaResp) "no pattern here" nullFetch

/-! # Theorems -/

set_option maxRecDepth 40000

/-! ## Text assembly (`parse_doc_content` core) -/

/-- Non-word records are identities of the assembly step, so folding over a
list and over its word-filtered sublist coincide from any state. -/
theorem foldl_contentStep_filter (items : List WordRec) :
    ∀ st : Option Int × String,
      items.foldl contentStep st =
        (items.filter fun r => r.t == "word").foldl contentStep st := by
  induction items with
  | nil => intro st; rfl
  | cons r rest ih =>
    intro st
    by_cases h : (r.t == "word") = true
    · simp only [List.foldl_cons, List.filter_cons, h, if_true, ih]
    · have h2 : (r.t == "word") = false := by
        simpa using h
      have hstep : contentStep st r = st := by
        simp [contentStep, h2]
      simp only [List.foldl_cons, List.filter_cons, h2, Bool.false_eq_true, if_false, hstep, ih]

/-- Folding the assembly step over word records from a `some prev` state
appends exactly the reference text `specJoin prev ws`. -/
theorem foldl_contentStep_words (ws : List WordRec) :
    ∀ prev : Int, ∀ acc : String, (∀ r ∈ ws, (r.t == "word") = true) →
      (ws.foldl contentStep (some prev, acc)).2 = acc ++ specJoin prev ws := by
  induction ws with
  | nil =>
    intro prev acc _
    simp [specJoin]
  | cons w rest ih =>
    intro prev acc hall
    have hw : (w.t == "word") = true := hall w (List.mem_cons_self w rest)
    have hrest : ∀ r ∈ rest, (r.t == "word") = true := fun r hr =>
      hall r (List.mem_cons_of_mem w hr)
    have hstep : contentStep (some prev, acc) w =
        (some w.y, acc ++ (w.c ++ (if 1 < (w.y - prev).natAbs then "\n" else ""))) := by
      simp only [contentStep, hw, if_true]
      by_cases hj : 1 < (w.y - prev).natAbs
      · simp [hj, String.append_assoc]
      · simp [hj]
    simp only [List.foldl_cons, hstep, ih w.y _ hrest, specJoin, String.append_assoc]

/-- Starting from the initial state (`last_y = None`, empty text), folding
over all-word records gives the reference assembly. -/
theorem foldl_contentStep_start (l : List WordRec)
    (hall : ∀ r ∈ l, (r.t == "word") = true) :
    (l.foldl contentStep (none, "")).2 = specAssemble l := by
  cases l with
  | nil => rfl
  | cons w ws =>
    have hw : (w.t == "word") = true := hall w (List.mem_cons_self w ws)
    have hstep : contentStep (none, "") w = (some w.y, w.c) := by
      simp [contentStep, hw]
    have hrest : ∀ r ∈ ws, (r.t == "word") = true := fun r hr =>
      hall r (List.mem_cons_of_mem w hr)
    have := foldl_contentStep_words ws w.y w.c hrest
    simp only [List.foldl_cons, hstep, this, specAssemble]

/-- `wordText` refines `specAssemble` on the word-filtered record list. -/
theorem wordText_spec (items : List WordRec) :
    wordText items = specAssemble (items.filter fun r => r.t == "word") := by
  unfold wordText
  rw [foldl_contentStep_filter]
  exact foldl_contentStep_start _ fun r hr => (List.mem_filter.mp hr).2

/-- Claim C2 counterexample: on the specification's example records the
code produces `"ABC\n"`, not `"AB\nC"` — the loop appends the newline
*after* the record whose vertical coordinate jumped, because `text +=
item['c']` runs before the line-break check.  The same holds through the
full `parse_doc_content` byte pipeline. -/
theorem wk_c2_cex :
    wordText c2recs = "ABC\n" ∧
    wordText c2recs ≠ "AB\nC" ∧
    parse_doc_content (asciiBytes c2frag) = some "ABC\n" := by
  refine ⟨rfl, ?_, rfl⟩
  intro h
  rw [show wordText c2recs = "ABC\n" from rfl] at h
  exact absurd h (by decide)

/-- Claim C2 (amended): on the example records `parse_doc_content` yields
`"ABC\n"`; in general the text is the ordered concatenation of the
contributing payloads with a newline appended immediately *after* each
contributing record (other than the first) whose vertical coordinate
differs from the previous contributing record's by more than 1 unit. -/
theorem wk_c2 :
    wordText c2recs = "ABC\n" ∧
    parse_doc_content (asciiBytes c2frag) = some "ABC\n" ∧
    ∀ items : List WordRec,
      wordText items = specAssemble (items.filter fun r => r.t == "word") :=
  ⟨rfl, rfl, wordText_spec⟩

/-- Claim C10: `parse_doc_content`'s output depends only on the
word-filtered subsequence — non-word records neither contribute characters
nor touch the `last_y` tracker, so assembling a record list equals
assembling its word-filtered sublist. -/
theorem wk_c10 (items : List WordRec) :
    wordText items = wordText (items.filter fun r => r.t == "word") := by
  unfold wordText
  rw [foldl_contentStep_filter items]

/-! ## Image URL derivation -/

/-- Claim C3: the format tag of a derived URL is decided by which range is
degenerate — a degenerate png range (with jpg non-degenerate) gives a jpg
URL (in particular for zoom `"&png=0-0&jpg=5-10"`), a degenerate jpg range
(png non-degenerate) gives a png URL, and no URL-yielding page has both
ranges degenerate. -/
theorem wk_c3 :
    (∀ d m : String, imageUrlFor d m ("&png=0-0&jpg=5-10") =
        some (mkImageUrl d m ("jpg") ("&png=0-0&jpg=5-10"))) ∧
    ∀ d m z : String, ∀ p j : List Char,
      findZoom z.toList = some (p, j) →
      (String.mk p = "0-0" → String.mk j ≠ "0-0" →
        imageUrlFor d m z = some (mkImageUrl d m ("jpg") z)) ∧
      (String.mk j = "0-0" → String.mk p ≠ "0-0" →
        imageUrlFor d m z = some (mkImageUrl d m ("png") z)) ∧
      ∀ u : String, imageUrlFor d m z = some u →
        ¬(String.mk p = "0-0" ∧ String.mk j = "0-0") := by
  constructor
  · intro d m; rfl
  · intro d m z p j hfind
    replace hfind : findZoom z.data = some (p, j) := hfind
    refine ⟨?_, ?_, ?_⟩
    · intro hp hj
      simp [imageUrlFor, hfind, hp, hj]
    · intro hj hp
      simp [imageUrlFor, hfind, hp, hj]
    · intro u hu hboth
      simp [imageUrlFor, hfind, hboth.1, hboth.2] at hu

/-- Witness for C3 at a concrete zoom with a degenerate jpg range. -/
theorem wk_c3_witness :
    imageUrlFor ("d") ("m") ("&png=5-10&jpg=0-0") =
      some (mkImageUrl ("d") ("m") ("png") ("&png=5-10&jpg=0-0")) :=
  (wk_c3.2 ("d") ("m") ("&png=5-10&jpg=0-0") (("5-10").toList) (("0-0").toList)
      (by decide)).2.1 (by decide) (by decide)

/-- The `parse_image_urls` accumulator loop is `filterMap` of the per-page
URL derivation applied after any prefix. -/
theorem foldl_imageUrls (did md5 : String) (ps : List PageParam) :
    ∀ acc : List String,
      ps.foldl (fun urls param =>
        match imageUrlFor did md5 param.zoom with
        | none => urls
        | some u => urls ++ [u]) acc =
      acc ++ ps.filterMap (fun q => imageUrlFor did md5 q.zoom) := by
  induction ps with
  | nil => intro acc; simp
  | cons p ps ih =>
    intro acc
    cases hu : imageUrlFor did md5 p.zoom with
    | none =>
      simp only [List.foldl_cons, hu, ih, List.filterMap_cons, List.append_assoc]
    | some u =>
      simp only [List.foldl_cons, hu, ih, List.filterMap_cons,
        List.append_assoc, List.singleton_append]

/-- Claim C4: a page whose zoom misses the `png=<a>-<b>&jpg=<c>-<d>`
pattern, or whose two ranges are both `"0-0"` (in particular zoom
`"&png=0-0&jpg=0-0"`), contributes no URL; and `parse_image_urls` is the
order-preserving `filterMap` of the per-page derivation over `bcsParam`. -/
theorem wk_c4 :
    (∀ d m : String, imageUrlFor d m ("&png=0-0&jpg=0-0") = none) ∧
    (∀ d m z : String, findZoom z.toList = none → imageUrlFor d m z = none) ∧
    (∀ d m z : String, ∀ p j : List Char,
      findZoom z.toList = some (p, j) → String.mk p = "0-0" → String.mk j = "0-0" →
      imageUrlFor d m z = none) ∧
    ∀ info : DocInfo,
      parse_image_urls info =
        info.bcsParam.filterMap fun q => imageUrlFor info.doc_id info.md5sum q.zoom := by
  refine ⟨fun d m => rfl, ?_, ?_, ?_⟩
  · intro d m z h
    replace h : findZoom z.data = none := h
    simp [imageUrlFor, h]
  · intro d m z p j h hp hj
    replace h : findZoom z.data = some (p, j) := h
    simp [imageUrlFor, h, hp, hj]
  · intro info
    unfold parse_image_urls
    simpa using foldl_imageUrls info.doc_id info.md5sum info.bcsParam []

/-- Witness for C4: a pattern miss and a doubly degenerate zoom, both
contributing no URL. -/
theorem wk_c4_witness :
    imageUrlFor ("d") ("m") ("nozoom") = none ∧
    imageUrlFor ("d") ("m") ("&png=0-0&jpg=0-0") = none :=
  ⟨wk_c4.2.1 ("d") ("m") ("nozoom") (by decide),
   wk_c4.2.2.1 ("d") ("m") ("&png=0-0&jpg=0-0") (("0-0").toList) (("0-0").toList)
     (by decide) (by decide) (by decide)⟩

/-! ## `load_jsonp` -/

/-- Claim C5 counterexample: the payload `"1)"` contains no `(` at all (so
no matching pair exists), yet `load_jsonp` succeeds: `str.find` returns -1
for the missing `(`, so the slice starts at index 0 and `"1"` parses as
JSON. -/
theorem wk_c5_cex :
    load_jsonp (Payload.text ("1)")) = Except.ok (Json.num false 1 [] 0) ∧
    load_jsonp (Payload.text ("1)")) ≠ Except.error JErr.ParseError := by
  refine ⟨rfl, ?_⟩
  intro h
  rw [show load_jsonp (Payload.text ("1)")) = Except.ok (Json.num false 1 [] 0) from rfl] at h
  exact Except.noConfusion h

/-- Claim C5 (amended): `load_jsonp` fails with a `ParseError` when the
payload contains no `)` at all, and when the slice between the first `(`
(or the payload start, when `(` is absent — `find` returns -1) and the
last `)` is not valid JSON; for byte input, a UTF-8 decoding failure is an
`EncodingError`. -/
theorem wk_c5 :
    (∀ s : String, strRFind ')' s.toList = none →
      load_jsonp (Payload.text s) = Except.error JErr.ParseError) ∧
    (∀ s : String, ∀ ri : Nat, strRFind ')' s.toList = some ri →
      json_loads_chars ((s.toList.drop (jsonpStart s.toList)).take (ri - jsonpStart s.toList)) = none →
      load_jsonp (Payload.text s) = Except.error JErr.ParseError) ∧
    (∀ b : List Nat, utf8Decode b = none →
      load_jsonp (Payload.bytes b) = Except.error JErr.EncodingError) := by
  refine ⟨?_, ?_, ?_⟩
  · intro s h
    replace h : strRFind ')' s.data = none := h
    simp [load_jsonp, load_jsonp_chars, h]
  · intro s ri h hj
    replace h : strRFind ')' s.data = some ri := h
    replace hj : json_loads_chars ((s.data.drop (jsonpStart s.data)).take
        (ri - jsonpStart s.data)) = none := hj
    simp [load_jsonp, load_jsonp_chars, h, hj]
  · intro b h
    simp [load_jsonp, h]

/-- Witness for C5: a payload with no `)`, a payload whose interior is the
empty string (not valid JSON), and an invalid UTF-8 byte. -/
theorem wk_c5_witness :
    load_jsonp (Payload.text ("cb(")) = Except.error JErr.ParseError ∧
    load_jsonp (Payload.text ("cb()")) = Except.error JErr.ParseError ∧
    load_jsonp (Payload.bytes [255]) = Except.error JErr.EncodingError :=
  ⟨wk_c5.1 ("cb(") (by decide),
   wk_c5.2.1 ("cb()") 3 (by decide) rfl,
   wk_c5.2.2 [255] (by decide)⟩

/-- `strFind` misses a character absent from the list. -/
theorem strFind_not_mem (c : Char) (l : List Char) (h : ∀ x ∈ l, x ≠ c) :
    strFind c l = none := by
  induction l with
  | nil => rfl
  | cons x xs ih =>
    have hx : x ≠ c := h x (List.mem_cons_self x xs)
    simp [strFind, hx, ih fun y hy => h y (List.mem_cons_of_mem x hy)]

/-- `strFind` locates the first occurrence after a clean prefix. -/
theorem strFind_append_first (c : Char) (pre rest : List Char) (h : ∀ x ∈ pre, x ≠ c) :
    strFind c (pre ++ c :: rest) = some pre.length := by
  induction pre with
  | nil => simp [strFind]
  | cons x xs ih =>
    have hx : x ≠ c := h x (List.mem_cons_self x xs)
    simp [strFind, hx, ih fun y hy => h y (List.mem_cons_of_mem x hy)]

/-- `strRFind` misses a character absent from the list. -/
theorem strRFind_not_mem (c : Char) (l : List Char) (h : ∀ x ∈ l, x ≠ c) :
    strRFind c l = none := by
  induction l with
  | nil => rfl
  | cons x xs ih =>
    have hx : x ≠ c := h x (List.mem_cons_self x xs)
    simp [strRFind, hx, ih fun y hy => h y (List.mem_cons_of_mem x hy)]

/-- `strRFind` locates the last occurrence before a clean suffix. -/
theorem strRFind_append_last (c : Char) (l suf : List Char) (h : ∀ x ∈ suf, x ≠ c) :
    strRFind c (l ++ c :: suf) = some l.length := by
  induction l with
  | nil => simp [strRFind, strRFind_not_mem c suf h]
  | cons x xs ih => simp [strRFind, ih]

/-- Claim C6: a payload of shape `<ident>(<json>)` with surrounding noise —
any prefix free of `(` and suffix free of `)` — unwraps to the JSON parsed
from the text strictly between the first `(` and the last `)`; byte input
is decoded as UTF-8 first, and text input is processed directly. -/
theorem wk_c6 :
    (∀ pre mid suf : List Char, ∀ v : Json,
      (∀ x ∈ pre, x ≠ '(') → (∀ x ∈ suf, x ≠ ')') → json_loads_chars mid = some v →
      load_jsonp_chars (pre ++ '(' :: (mid ++ ')' :: suf)) = Except.ok v) ∧
    (∀ b : List Nat, ∀ cs : List Char, utf8Decode b = some cs →
      load_jsonp (Payload.bytes b) = load_jsonp_chars cs) ∧
    (∀ s : String, load_jsonp (Payload.text s) = load_jsonp_chars s.toList) := by
  refine ⟨?_, ?_, fun s => rfl⟩
  · intro pre mid suf v hpre hsuf hmid
    have hfind : strFind '(' (pre ++ '(' :: (mid ++ ')' :: suf)) = some pre.length :=
      strFind_append_first '(' pre _ hpre
    have hstart : jsonpStart (pre ++ '(' :: (mid ++ ')' :: suf)) = pre.length + 1 := by
      simp [jsonpStart, hfind]
    have hrfind : strRFind ')' (pre ++ '(' :: (mid ++ ')' :: suf)) =
        some (pre.length + 1 + mid.length) := by
      rw [show pre ++ '(' :: (mid ++ ')' :: suf) = (pre ++ '(' :: mid) ++ ')' :: suf by simp,
        strRFind_append_last ')' _ suf hsuf]
      simp [Nat.add_comm, Nat.add_assoc, Nat.add_left_comm]
    have hdrop : (pre ++ '(' :: (mid ++ ')' :: suf)).drop (pre.length + 1) =
        mid ++ ')' :: suf := by
      rw [show pre ++ '(' :: (mid ++ ')' :: suf) = (pre ++ ['(']) ++ (mid ++ ')' :: suf) by simp,
        show pre.length + 1 = (pre ++ ['(']).length by simp, List.drop_left]
    have hcount : pre.length + 1 + mid.length - (pre.length + 1) = mid.length := by omega
    have htake : (mid ++ ')' :: suf).take mid.length = mid := List.take_left mid _
    simp only [load_jsonp_chars, hstart, hrfind, hdrop, hcount, htake, hmid]
  · intro b cs h
    simp [load_jsonp, h]

/-- Witness for C6: the two payloads of the specification, with and
without comment noise, through text and byte input respectively. -/
theorem wk_c6_witness :
    load_jsonp (Payload.text ("cb(\x7b\"a\":1\x7d)")) =
      Except.ok (Json.obj [("a", Json.num false 1 [] 0)]) ∧
    load_jsonp (Payload.bytes (asciiBytes ("/**/callback(\x7b\"a\":1\x7d)/*comment*/"))) =
      Except.ok (Json.obj [("a", Json.num false 1 [] 0)]) := by
  constructor
  · rw [wk_c6.2.2 ("cb(\x7b\"a\":1\x7d)"),
      show ("cb(\x7b\"a\":1\x7d)").toList =
        ("cb").toList ++ '(' :: (("\x7b\"a\":1\x7d").toList ++ ')' :: []) from rfl]
    exact wk_c6.1 _ _ _ _ (by decide) (by decide) rfl
  · rw [wk_c6.2.1 (asciiBytes ("/**/callback(\x7b\"a\":1\x7d)/*comment*/"))
        (("/**/callback(\x7b\"a\":1\x7d)/*comment*/").toList) rfl,
      show ("/**/callback(\x7b\"a\":1\x7d)/*comment*/").toList =
        ("/**/callback").toList ++ '(' ::
          (("\x7b\"a\":1\x7d").toList ++ ')' :: ("/*comment*/").toList) from rfl]
    exact wk_c6.1 _ _ _ _ (by decide) (by decide) rfl

/-! ## `parse_doc_id` -/

/-- A leading hex run of length ≥ 8 is in particular a match. -/
theorem lead_hasRun8 (l : List Char) (h : 8 ≤ (l.takeWhile isHexLower).length) :
    hasRun8 l = true := by
  cases l with
  | nil => simp at h
  | cons d t =>
    have hs : startsRun8 (d :: t) = true := by
      simp only [startsRun8, decide_eq_true_eq]
      exact h
    simp [hasRun8, hs]

/-- The scanner succeeds iff the current run can still reach length 8 or a
match starts somewhere in the remaining input. -/
theorem hexScan_isSome (l : List Char) :
    ∀ cur : List Char,
      (hexScan cur l).isSome =
        (decide (8 ≤ cur.length + (l.takeWhile isHexLower).length) || hasRun8 l) := by
  induction l with
  | nil =>
    intro cur
    by_cases h : 8 ≤ cur.length
    · simp [hexScan, hasRun8, h]
    · simp [hexScan, hasRun8, h]
  | cons c rest ih =>
    intro cur
    by_cases hc : isHexLower c = true
    · have hstep : hexScan cur (c :: rest) = hexScan (c :: cur) rest := by
        simp [hexScan, hc]
      have htw : (c :: rest).takeWhile isHexLower = c :: rest.takeWhile isHexLower := by
        simp [List.takeWhile_cons, hc]
      have hstart : startsRun8 (c :: rest) =
          decide (8 ≤ (rest.takeWhile isHexLower).length + 1) := by
        simp [startsRun8, htw]
      rw [hstep, ih (c :: cur), hasRun8, htw, hstart]
      cases h8 : hasRun8 rest with
      | false =>
        rw [Bool.eq_iff_iff]
        simp only [Bool.or_false, Bool.or_eq_true, decide_eq_true_eq, List.length_cons]
        omega
      | true => simp
    · have hc2 : isHexLower c = false := by simpa using hc
      have htw : (c :: rest).takeWhile isHexLower = [] := by
        simp [List.takeWhile_cons, hc2]
      have hstart : startsRun8 (c :: rest) = false := by
        simp [startsRun8, htw]
      by_cases h8c : 8 ≤ cur.length
      · have hstep : hexScan cur (c :: rest) = some cur.reverse := by
          simp [hexScan, hc2, h8c]
        rw [hstep, hasRun8, hstart, htw]
        simp [h8c]
      · have hstep : hexScan cur (c :: rest) = hexScan [] rest := by
          simp [hexScan, hc2, h8c]
        rw [hstep, ih [], hasRun8, hstart, htw]
        rw [Bool.eq_iff_iff]
        simp only [Bool.or_eq_true, decide_eq_true_eq, Bool.false_or, List.length_nil,
          Nat.zero_add, Nat.add_zero]
        constructor
        · rintro (h | h)
          · exact Or.inr (lead_hasRun8 rest h)
          · exact Or.inr h
        · rintro (h | h)
          · exact absurd h h8c
          · exact Or.inr h

/-- Whatever the scanner returns is a hex run of length ≥ 8 occurring in
the scanned text (prefixed by the pending accumulator). -/
theorem hexScan_some (l : List Char) :
    ∀ cur r : List Char, cur.all isHexLower = true → hexScan cur l = some r →
      8 ≤ r.length ∧ r.all isHexLower = true ∧
      ∃ pre suf : List Char, cur.reverse ++ l = pre ++ r ++ suf := by
  induction l with
  | nil =>
    intro cur r hcur h
    rw [hexScan] at h
    by_cases h8 : 8 ≤ cur.length
    · rw [if_pos h8] at h
      obtain rfl : cur.reverse = r := Option.some.inj h
      exact ⟨by simpa using h8, by simpa using hcur, [], [], by simp⟩
    · rw [if_neg h8] at h
      exact absurd h (by simp)
  | cons c rest ih =>
    intro cur r hcur h
    by_cases hc : isHexLower c = true
    · have hstep : hexScan cur (c :: rest) = hexScan (c :: cur) rest := by
        simp [hexScan, hc]
      rw [hstep] at h
      have hcur2 : (c :: cur).all isHexLower = true := by
        simp [List.all_cons, hc, hcur]
      obtain ⟨h1, h2, pre, suf, heq⟩ := ih (c :: cur) r hcur2 h
      refine ⟨h1, h2, pre, suf, ?_⟩
      rw [show cur.reverse ++ c :: rest = (c :: cur).reverse ++ rest by simp]
      exact heq
    · have hc2 : isHexLower c = false := by simpa using hc
      by_cases h8 : 8 ≤ cur.length
      · have hstep : hexScan cur (c :: rest) = some cur.reverse := by
          simp [hexScan, hc2, h8]
        rw [hstep] at h
        obtain rfl : cur.reverse = r := Option.some.inj h
        exact ⟨by simpa using h8, by simpa using hcur, [], c :: rest, by simp⟩
      · have hstep : hexScan cur (c :: rest) = hexScan [] rest := by
          simp [hexScan, hc2, h8]
        rw [hstep] at h
        obtain ⟨h1, h2, pre, suf, heq⟩ := ih [] r (by simp) h
        refine ⟨h1, h2, cur.reverse ++ c :: pre, suf, ?_⟩
        simp only [List.reverse_nil, List.nil_append] at heq
        simp [heq, List.append_assoc]

/-- On an empty accumulator the scanner succeeds exactly when a match
exists. -/
theorem hexScan_isSome_nil (l : List Char) : (hexScan [] l).isSome = hasRun8 l := by
  rw [hexScan_isSome l []]
  cases h8 : hasRun8 l with
  | false =>
    by_cases htw : 8 ≤ (l.takeWhile isHexLower).length
    · exact absurd (lead_hasRun8 l htw) (by simp [h8])
    · simp [htw]
  | true => simp

/-- Everything `takeWhile` keeps satisfies the predicate. -/
theorem all_takeWhile (p : Char → Bool) (l : List Char) : (l.takeWhile p).all p = true := by
  induction l with
  | nil => rfl
  | cons c rest ih =>
    by_cases hc : p c = true
    · simp [List.takeWhile_cons, hc, ih]
    · simp [List.takeWhile_cons, hc]

/-- `takeWhile` swallows a leading block that satisfies the predicate
throughout. -/
theorem takeWhile_append_of_all (p : Char → Bool) (r s : List Char) (h : r.all p = true) :
    (r ++ s).takeWhile p = r ++ s.takeWhile p := by
  induction r with
  | nil => simp
  | cons c t ih =>
    simp only [List.all_cons, Bool.and_eq_true] at h
    simp [List.takeWhile_cons, h.1, ih h.2]

/-- The first character surviving `dropWhile` refutes the predicate. -/
theorem head?_dropWhile_not (p : Char → Bool) (l : List Char) :
    ∀ c, (l.dropWhile p).head? = some c → p c = false := by
  induction l with
  | nil => intro c h; simp at h
  | cons x rest ih =>
    intro c h
    by_cases hx : p x = true
    · rw [List.dropWhile_cons_of_pos hx] at h
      exact ih c h
    · have hx2 : p x = false := by simpa using hx
      rw [List.dropWhile_cons_of_neg (by simp [hx2])] at h
      simp only [List.head?_cons, Option.some.injEq] at h
      subst h
      exact hx2

/-- A position whose forward hex run is shorter than 8 starts no match. -/
theorem startsRun8_eq_false (l : List Char) (h : (l.takeWhile isHexLower).length < 8) :
    startsRun8 l = false := by
  simp only [startsRun8, decide_eq_false_iff_not]
  omega

/-- A leading hex run of length ≥ 8 is the first match of the text. -/
theorem firstMatch_of_lead (l : List Char)
    (hlen : 8 ≤ (l.takeWhile isHexLower).length) :
    IsFirstHexMatch l (l.takeWhile isHexLower) := by
  refine ⟨[], l.dropWhile isHexLower, by simp [List.takeWhile_append_dropWhile], hlen,
    all_takeWhile _ _, head?_dropWhile_not _ _, ?_, ?_⟩
  · intro c h; simp at h
  · intro k hk; simp at hk

/-- What the scanner returns from a pending all-hex run `cur` is either
that run completed to length ≥ 8 by the leading hex of `l`, or — when the
pending run dies short — the first match of the remaining text `l`. -/
theorem hexScan_first (l : List Char) :
    ∀ cur r : List Char, cur.all isHexLower = true → hexScan cur l = some r →
      (8 ≤ cur.length + (l.takeWhile isHexLower).length ∧
        r = cur.reverse ++ l.takeWhile isHexLower) ∨
      (cur.length + (l.takeWhile isHexLower).length < 8 ∧ IsFirstHexMatch l r) := by
  induction l with
  | nil =>
    intro cur r hcur h
    rw [hexScan] at h
    by_cases h8 : 8 ≤ cur.length
    · rw [if_pos h8] at h
      obtain rfl : cur.reverse = r := Option.some.inj h
      left
      simpa using h8
    · rw [if_neg h8] at h
      exact absurd h (by simp)
  | cons c rest ih =>
    intro cur r hcur h
    by_cases hc : isHexLower c = true
    · have hstep : hexScan cur (c :: rest) = hexScan (c :: cur) rest := by
        simp [hexScan, hc]
      rw [hstep] at h
      have hcur2 : (c :: cur).all isHexLower = true := by simp [hc, hcur]
      have htw : (c :: rest).takeWhile isHexLower = c :: rest.takeWhile isHexLower := by
        simp [List.takeWhile_cons, hc]
      rcases ih (c :: cur) r hcur2 h with ⟨hlen, hr⟩ | ⟨hlen, hfirst⟩
      · left
        simp only [List.length_cons] at hlen
        constructor
        · rw [htw]
          simp only [List.length_cons]
          omega
        · rw [hr, htw]
          simp
      · right
        simp only [List.length_cons] at hlen
        refine ⟨by rw [htw]; simp only [List.length_cons]; omega, ?_⟩
        obtain ⟨pre, suf, hdec, hrlen, hrall, hsuf, hlast, hfirstk⟩ := hfirst
        have hpre_ne : pre ≠ [] := by
          intro hpre
          subst hpre
          simp only [List.nil_append] at hdec
          have hge : r.length ≤ (rest.takeWhile isHexLower).length := by
            rw [hdec, takeWhile_append_of_all _ _ _ hrall]
            simp
          omega
        obtain ⟨p0, pre1, rfl⟩ : ∃ p0 pre1, pre = p0 :: pre1 := by
          cases pre with
          | nil => exact absurd rfl hpre_ne
          | cons p0 pre1 => exact ⟨p0, pre1, rfl⟩
        refine ⟨c :: p0 :: pre1, suf, by simp [hdec], hrlen, hrall, hsuf, ?_, ?_⟩
        · intro x hx
          rw [List.getLast?_cons_cons] at hx
          exact hlast x hx
        · intro k hk
          simp only [List.length_cons] at hk
          cases k with
          | zero =>
            simp only [List.drop_zero]
            apply startsRun8_eq_false
            rw [htw]
            simp only [List.length_cons]
            omega
          | succ k1 =>
            rw [List.drop_succ_cons]
            exact hfirstk k1 (by simp only [List.length_cons]; omega)
    · have hc2 : isHexLower c = false := by simpa using hc
      have htw : (c :: rest).takeWhile isHexLower = [] := by
        simp [List.takeWhile_cons, hc2]
      by_cases h8 : 8 ≤ cur.length
      · have hstep : hexScan cur (c :: rest) = some cur.reverse := by
          simp [hexScan, hc2, h8]
        rw [hstep] at h
        obtain rfl : cur.reverse = r := Option.some.inj h
        left
        rw [htw]
        simpa using h8
      · have hstep : hexScan cur (c :: rest) = hexScan [] rest := by
          simp [hexScan, hc2, h8]
        rw [hstep] at h
        have hzero : startsRun8 (c :: rest) = false := by
          apply startsRun8_eq_false
          rw [htw]
          simp
        rcases ih [] r (by simp) h with ⟨hlen, hr⟩ | ⟨hlen, hfirst⟩
        · right
          simp only [List.length_nil, Nat.zero_add] at hlen
          simp only [List.reverse_nil, List.nil_append] at hr
          refine ⟨by rw [htw]; simpa using Nat.lt_of_not_le h8, ?_⟩
          subst hr
          refine ⟨[c], rest.dropWhile isHexLower,
            by simp [List.takeWhile_append_dropWhile], hlen,
            all_takeWhile _ _, head?_dropWhile_not _ _, ?_, ?_⟩
          · intro x hx
            simp only [List.getLast?_singleton, Option.some.injEq] at hx
            subst hx
            exact hc2
          · intro k hk
            simp only [List.length_cons, List.length_nil] at hk
            obtain rfl : k = 0 := by omega
            simpa using hzero
        · right
          simp only [List.length_nil, Nat.zero_add] at hlen
          refine ⟨by rw [htw]; simpa using Nat.lt_of_not_le h8, ?_⟩
          obtain ⟨pre, suf, hdec, hrlen, hrall, hsuf, hlast, hfirstk⟩ := hfirst
          refine ⟨c :: pre, suf, by simp [hdec], hrlen, hrall, hsuf, ?_, ?_⟩
          · intro x hx
            cases pre with
            | nil =>
              simp only [List.getLast?_singleton, Option.some.injEq] at hx
              subst hx
              exact hc2
            | cons p0 pre1 =>
              rw [List.getLast?_cons_cons] at hx
              exact hlast x hx
          · intro k hk
            simp only [List.length_cons] at hk
            cases k with
            | zero =>
              simpa using hzero
            | succ k1 =>
              rw [List.drop_succ_cons]
              exact hfirstk k1 (by omega)

/-- Claim C7: `parse_doc_id` returns the specification's identifiers on the
example inputs; any returned identifier is the *first* match of
`[0-9a-f]{8,}` — a hex run of length ≥ 8 occurring in the input, maximal
on both sides, with no earlier position starting 8 consecutive hex digits;
and it returns `none` (an absence signal — the function is total, so no
exception is possible) exactly when no such run occurs. -/
theorem wk_c7 :
    parse_doc_id ("https://host/view/abc12345de.html") = some ("abc12345de") ∧
    parse_doc_id ("/764658986845968abdbbd/") = some ("764658986845968abdbbd") ∧
    parse_doc_id ("no-hex-here") = none ∧
    (∀ s : String, (parse_doc_id s).isSome = hasRun8 s.toList) ∧
    (∀ s r : String, parse_doc_id s = some r → IsFirstHexMatch s.toList r.toList) ∧
    (∀ s : String, hasRun8 s.toList = false → parse_doc_id s = none) := by
  have hfirst : ∀ s r : String, parse_doc_id s = some r →
      IsFirstHexMatch s.toList r.toList := by
    intro s r h
    unfold parse_doc_id at h
    rw [Option.map_eq_some'] at h
    obtain ⟨l, hl, rfl⟩ := h
    have hrt : (String.mk l).toList = l := rfl
    rw [hrt]
    rcases hexScan_first s.toList [] l (by simp) hl with ⟨hlen, hr⟩ | ⟨_, hfp⟩
    · simp only [List.length_nil, Nat.zero_add] at hlen
      simp only [List.reverse_nil, List.nil_append] at hr
      subst hr
      exact firstMatch_of_lead s.toList hlen
    · exact hfp
  have hsome : ∀ s : String, (parse_doc_id s).isSome = hasRun8 s.toList := by
    intro s
    unfold parse_doc_id
    have hmap : ∀ o : Option (List Char), (o.map fun l => String.mk l).isSome = o.isSome := by
      intro o; cases o <;> rfl
    rw [hmap]
    exact hexScan_isSome_nil s.toList
  refine ⟨rfl, rfl, rfl, hsome, hfirst, ?_⟩
  intro s h
  have := hsome s
  rw [h] at this
  exact Option.not_isSome_iff_eq_none.mp (by simp [this])

/-- Witness for C7: on an input carrying a too-short run (`0abc99`), a
first qualifying run (`deadbeef42`) and a later, longer run
(`00112233445566`), the returned identifier is the first maximal match;
and absence on the hex-free example. -/
theorem wk_c7_witness :
    IsFirstHexMatch ("xx0abc99/deadbeef42/00112233445566" : String).toList
      ("deadbeef42" : String).toList ∧
    parse_doc_id ("no-hex-here") = none :=
  ⟨wk_c7.2.2.2.2.1 ("xx0abc99/deadbeef42/00112233445566") ("deadbeef42") rfl,
   wk_c7.2.2.2.2.2 ("no-hex-here") (by decide)⟩

/-! ## `batch_fetch` ordering -/

/-- Completing tasks never changes the size of the slot table. -/
theorem foldl_set_length (v : Nat → List Nat) (order : List Nat) :
    ∀ slots : List (Option (List Nat)),
      (order.foldl (fun s i => s.set i (some (v i))) slots).length = slots.length := by
  induction order with
  | nil => intro slots; rfl
  | cons i rest ih =>
    intro slots
    rw [List.foldl_cons, ih, List.length_set]

/-- After the completions in `order`, slot `k` holds task `k`'s result iff
task `k` completed (regardless of when), and is untouched otherwise. -/
theorem foldl_set_getElem (v : Nat → List Nat) (order : List Nat) :
    ∀ slots : List (Option (List Nat)), ∀ k : Nat,
      (order.foldl (fun s i => s.set i (some (v i))) slots)[k]? =
        if k ∈ order ∧ k < slots.length then some (some (v k)) else slots[k]? := by
  induction order with
  | nil =>
    intro slots k
    simp
  | cons i rest ih =>
    intro slots k
    rw [List.foldl_cons, ih (slots.set i (some (v i))) k]
    simp only [List.length_set, List.mem_cons]
    by_cases h1 : k ∈ rest
    · by_cases h2 : k < slots.length
      · rw [if_pos ⟨h1, h2⟩, if_pos ⟨Or.inr h1, h2⟩]
      · rw [if_neg (fun hc => h2 hc.2), if_neg (fun hc => h2 hc.2)]
        have hlen : slots.length ≤ k := Nat.le_of_not_lt h2
        rw [List.getElem?_eq_none (by simpa using hlen), List.getElem?_eq_none hlen]
    · by_cases hik : k = i
      · subst hik
        by_cases h2 : k < slots.length
        · rw [if_neg (fun hc => h1 hc.1), if_pos ⟨Or.inl rfl, h2⟩]
          exact List.getElem?_set_eq_of_lt _ h2
        · rw [if_neg (fun hc => h1 hc.1), if_neg (fun hc => h2 hc.2)]
          have hlen : slots.length ≤ k := Nat.le_of_not_lt h2
          rw [List.getElem?_eq_none (by simpa using hlen), List.getElem?_eq_none hlen]
      · rw [if_neg (fun hc => h1 hc.1), List.getElem?_set_ne (fun hc => hik hc.symm),
          if_neg (fun hc => hc.1.elim (fun he => hik he) h1)]

/-- Consuming a fully completed slot table returns exactly the stored
results. -/
theorem collectResults_map_some (l : List (List Nat)) :
    collectResults (l.map some) = some l := by
  induction l with
  | nil => rfl
  | cons b rest ih => simp [collectResults, ih]

/-- Claim C1: for any transport, any URL list and any adversarial
completion order that eventually completes every task, the consumed
`batch_fetch` sequence has exactly one result per URL, in submission
order: it is the pointwise image of the URL list under the transport, so
the `i`-th result is the fetched content of the `i`-th URL. -/
theorem wk_c1 (fetchf : Transport) (urls : List String) (order : List Nat)
    (hperm : order.Perm (List.range urls.length)) :
    batch_fetch fetchf urls order = some (urls.map fetchf) ∧
    (urls.map fetchf).length = urls.length ∧
    ∀ i : Nat, ∀ h : i < urls.length,
      (urls.map fetchf).get ⟨i, by simpa using h⟩ = fetchf (urls.get ⟨i, h⟩) := by
  have hmem : ∀ k, k ∈ order ↔ k < urls.length := by
    intro k
    rw [hperm.mem_iff, List.mem_range]
  have hfinal : runPool fetchf urls order =
      (urls.map fetchf).map some := by
    apply List.ext_getElem?
    intro k
    unfold runPool
    rw [foldl_set_getElem (fun i => fetchf (urls.getD i "")) order _ k]
    simp only [List.length_replicate]
    by_cases hk : k < urls.length
    · rw [if_pos ⟨(hmem k).mpr hk, hk⟩]
      rw [List.getElem?_map, List.getElem?_map, List.getElem?_eq_getElem hk]
      simp only [Option.map_some']
      rw [List.getD_eq_getElem urls "" hk]
    · rw [if_neg (fun hc => hk hc.2)]
      have hlen : urls.length ≤ k := Nat.le_of_not_lt hk
      rw [List.getElem?_eq_none (by simpa using hlen),
        List.getElem?_eq_none (by simpa using hlen)]
  refine ⟨?_, by simp, ?_⟩
  · unfold batch_fetch
    rw [hfinal, collectResults_map_some]
  · intro i h
    simp

/-- Witness for C1: three URLs completing in the order 2, 0, 1 are still
consumed in submission order. -/
theorem wk_c1_witness :
    batch_fetch asciiBytes ["a", "b", "c"] [2, 0, 1] =
      some [asciiBytes ("a"), asciiBytes ("b"), asciiBytes ("c")] :=
  (wk_c1 asciiBytes ["a", "b", "c"] [2, 0, 1] (by decide)).1

/-! ## `get_text` extraction shapes -/

/-- Claim C8 counterexample: a viewer page carrying the secondary
`WkInfo.htmlUrls = '...'` shape but not the primary `var pageData` blob —
`get_text` does not fall back to the secondary pattern; it fails with the
`ValueError` for an unparsable page. -/
theorem wk_c8_cex :
    hasWkInfoPattern wkOnlyHtml = true ∧
    get_text_raw (TextEnv.mk wkOnlyHtml nullFetch) = Except.error ("无法解析页面") :=
  ⟨rfl, rfl⟩

/-- Claim C8 (amended): `get_text` attempts only the primary
`var pageData = {...}` shape, with no secondary fallback; when that
pattern is absent it raises `ValueError("无法解析页面")`, which the
`ProgressInfo` decorator suppresses, so the decorated call returns no text
(`None`) instead of propagating the error. -/
theorem wk_c8 (env : TextEnv) (h : findPageData env.viewerHtml.toList = none) :
    get_text_raw env = Except.error ("无法解析页面") ∧
    get_text env = Except.ok none := by
  have h2 : findPageData env.viewerHtml.data = none := h
  constructor
  · simp [get_text_raw, h2]
  · simp [get_text, get_text_raw, h2, runWithProgress, progressExitReturn]

/-- Witness for C8 at the secondary-shape-only page. -/
theorem wk_c8_witness :
    get_text_raw (TextEnv.mk wkOnlyHtml nullFetch) = Except.error ("无法解析页面") ∧
    get_text (TextEnv.mk wkOnlyHtml nullFetch) = Except.ok none :=
  wk_c8 (TextEnv.mk wkOnlyHtml nullFetch) rfl

/-! ## `fetch` error recovery -/

/-- Claim C9: when text extraction fails inside a `fetch` run whose earlier
stages succeed, no exception propagates: the run completes (an `Except.ok`
trace) with the image files already written, the text file is omitted, and
a warning is emitted instead. -/
theorem wk_c9 (env : FetchEnv) (did : String) (j : Json) (title : String)
    (info : DocInfo) (e : String)
    (h1 : parse_doc_id env.url = some did)
    (h2 : load_jsonp (Payload.bytes env.docInfoResp) = Except.ok j)
    (h3 : ((jGet j "docInfo" >>= fun d => jGet d "docTitle") >>= jStr) = some title)
    (h4 : docInfoOfJson j = some info)
    (h5 : get_text_raw (TextEnv.mk env.viewerHtml env.fetchf) = Except.error e) :
    fetch env = Except.ok
      (FEvent.madeDir title ::
        (get_images info env.fetchf).map
          (fun fd => FEvent.wroteFile (title ++ "/" ++ fd.1) fd.2) ++
        [FEvent.warned ("无文本信息")]) ∧
    ∀ ev ∈ (FEvent.madeDir title ::
        (get_images info env.fetchf).map
          (fun fd => FEvent.wroteFile (title ++ "/" ++ fd.1) fd.2) ++
        [FEvent.warned ("无文本信息")]),
      (∀ p t : String, ev ≠ FEvent.wroteTextFile p t) ∧
      ∀ t : String, ev ≠ FEvent.printedPath t := by
  constructor
  · unfold fetch
    rw [h1, h2]
    simp only [Except.mapError, runWithProgress]
    rw [h3, h4, h5]
    simp [runWithProgress, progressExitReturn]
  · intro ev hev
    rcases List.mem_cons.mp hev with rfl | hev2
    · exact ⟨fun p t h => FEvent.noConfusion h, fun t h => FEvent.noConfusion h⟩
    · rcases List.mem_append.mp hev2 with hmap | hlast
      · obtain ⟨fd, _, rfl⟩ := List.mem_map.mp hmap
        exact ⟨fun p t h => FEvent.noConfusion h, fun t h => FEvent.noConfusion h⟩
      · rcases List.mem_singleton.mp hlast with rfl
        exact ⟨fun p t h => FEvent.noConfusion h, fun t h => FEvent.noConfusion h⟩

/-- Witness for C9: the concrete environment `env1` (valid metadata, one
jpg page, a text-less viewer page) completes with the image written and
the text file omitted. -/
theorem wk_c9_witness :
    fetch env1 = Except.ok
      [FEvent.madeDir ("T"), FEvent.wroteFile ("T/page-1.jpg") [],
       FEvent.warned ("无文本信息")] :=
  (wk_c9 env1 ("aabbccdd") jMeta ("T") infoMeta ("无法解析页面")
    rfl rfl rfl rfl rfl).1

end Wenku
